import Mathlib

/-!
Verification of the TrTReal tree parser (src/parser.py, src/const.py).

The Python module is embedded shallowly: lines are lists of characters,
the mutable TreeNode graph (children lists plus parent back-pointers) is
an arena, i.e. a list of records indexed by creation order, and the
parser's mutable state (root, all_nodes, parent stack) is passed
explicitly through a fold over the input lines.  Python string stripping
is modelled on its ASCII whitespace characters, which covers every input
of interest here.
-/

/-! ## Constants from src/const.py (lines 6-12)

const.py does not contain the box-drawing connectors its comments
describe: its literal text is the UTF-8 bytes of the connectors decoded
as Mac-Roman and re-encoded, so each box-drawing character became three
characters.  The embedding reproduces the file's literal characters:
TREE_BRANCH and TREE_LAST are 10 characters long, TREE_VERTICAL is 6
(U+201A U+00EE U+00FA for the corrupted branch glyph, U+201A U+00EE
U+00C4 for the corrupted horizontal, U+201A U+00EE U+00EE for the
corrupted corner, U+201A U+00EE U+00C7 for the corrupted vertical).
Only TREE_SPACE (four plain spaces) survived intact.  The renderer in
utils.py emits the real connectors, which these constants never match. -/

/-- TREE_BRANCH, the literal 10-character string of const.py line 6:
the corrupted branch glyph, two corrupted horizontals, one space. -/
def TREE_BRANCH : List Char := ['‚', 'î', 'ú', '‚', 'î', 'Ä', '‚', 'î', 'Ä', ' ']

/-- TREE_LAST, the literal 10-character string of const.py line 7:
the corrupted corner glyph, two corrupted horizontals, one space. -/
def TREE_LAST : List Char := ['‚', 'î', 'î', '‚', 'î', 'Ä', '‚', 'î', 'Ä', ' ']

/-- TREE_VERTICAL, the literal 6-character string of const.py line 8:
the corrupted vertical glyph plus three spaces. -/
def TREE_VERTICAL : List Char := ['‚', 'î', 'Ç', ' ', ' ', ' ']

/-- TREE_SPACE = four plain spaces, from const.py line 9. -/
def TREE_SPACE : List Char := [' ', ' ', ' ', ' ']

/-! ## Python string helpers -/

/-- The ASCII whitespace characters stripped by Python str.strip(). -/
def isPySpace (c : Char) : Bool :=
  c = ' ' || c = '\t' || c = '\n' || c = '\r' || c = '\x0b' || c = '\x0c'

/-- Python s.strip(): remove leading and trailing whitespace. -/
def stripChars (cs : List Char) : List Char :=
  ((cs.dropWhile isPySpace).reverse.dropWhile isPySpace).reverse

/-- Python s.rstrip(slash): remove every trailing slash character. -/
def rstripSlash (cs : List Char) : List Char :=
  (cs.reverse.dropWhile (fun c => c = '/')).reverse

/-- Python s.endswith(slash) as used on extracted names in parse. -/
def endsWithSlash (cs : List Char) : Bool :=
  decide (cs.getLast? = some '/')

/-- Python s.split(newline): note that splitting the empty text yields
one empty line, exactly as in Python. -/
def splitLines : List Char → List (List Char)
  | [] => [[]]
  | c :: rest =>
    if c = '\n' then [] :: splitLines rest
    else
      match splitLines rest with
      | [] => [[c]]
      | l :: ls => (c :: l) :: ls

/-! ## Data model: TreeNode (src/parser.py lines 10-34) as an arena record.

children and parent hold arena indices (creation order) instead of
object references. -/

/-- One TreeNode of src/parser.py.  children and parent are indices into
the flat all_nodes list. -/
structure Node where
  name : List Char
  is_directory : Bool
  depth : Nat
  children : List Nat
  parent : Option Nat
deriving DecidableEq

/-- The TreeParser state (src/parser.py lines 40-42): the root reference
and the flat all_nodes list, both as arena indices. -/
structure ParseState where
  root : Option Nat
  all_nodes : List Node
deriving DecidableEq

/-- A freshly constructed TreeParser (src/parser.py __init__, lines 40-42). -/
def initState : ParseState := ⟨none, []⟩

/-! ## Per-line extraction: TreeParser._parse_line (src/parser.py lines 124-174).

The Python scans the line with a position index; advancing the position
past a recognised token is consuming that token from the front of the
remaining character list, so the loop is embedded as structural recursion
on the remaining characters, with the match arms in exactly the order of
the Python checks: BRANCH, LAST, VERTICAL, SPACE, single space, tab,
fallback.  The marker and continuation arms spell out the literal
characters of the const.py constants (the corrupted connector strings,
10, 10 and 6 characters), because those are what the startswith checks
of lines 139, 143, 148 and 153 compare against and what pos advances by
(len of the constant).  A line written with real box-drawing connectors
matches none of these arms and falls to the fallback.  The final arm
covers both the in-loop fallback (line 168-172) and the return after the
loop (line 174): when the stripped remainder is empty both produce
(0, empty). -/

/-- The scanning loop of _parse_line: depth is the running counter,
the list argument is line[pos:]. -/
def parseLineAt : Nat → List Char → Nat × List Char
  | depth, '‚' :: 'î' :: 'ú' :: '‚' :: 'î' :: 'Ä' :: '‚' :: 'î' :: 'Ä' :: ' ' :: r =>
    (depth + 1, stripChars r)
  | depth, '‚' :: 'î' :: 'î' :: '‚' :: 'î' :: 'Ä' :: '‚' :: 'î' :: 'Ä' :: ' ' :: r =>
    (depth + 1, stripChars r)
  | depth, '‚' :: 'î' :: 'Ç' :: ' ' :: ' ' :: ' ' :: r => parseLineAt (depth + 1) r
  | depth, ' ' :: ' ' :: ' ' :: ' ' :: r => parseLineAt (depth + 1) r
  | depth, ' ' :: r => parseLineAt depth r
  | depth, '\t' :: r => parseLineAt (depth + 1) r
  | _, cs =>
    let name := stripChars cs
    if name.isEmpty then (0, []) else (0, name)

/-- TreeParser._parse_line: scan from position 0 with depth 0. -/
def parse_line (line : List Char) : Nat × List Char :=
  parseLineAt 0 line

/-! ## The parse loop: TreeParser.parse (src/parser.py lines 44-122). -/

/-- The look-ahead of parse lines 82-88: walk the lines after the current
one, skip lines that strip to nothing, and return the extracted depth of
the first remaining line. -/
def nextDepth : List (List Char) → Option Nat
  | [] => none
  | l :: rest =>
    if (stripChars l).isEmpty then nextDepth rest
    else some (parse_line l).1

/-- The directory classification of parse lines 75-90: the primary
signal is a trailing slash, which is stripped; otherwise the node is a
directory exactly when the looked-ahead depth exists and is strictly
greater than the current depth.  Returns (is_directory, final name). -/
def classifyName (depth : Nat) (name : List Char) (rest : List (List Char)) :
    Bool × List Char :=
  if endsWithSlash name then (true, rstripSlash name)
  else
    match nextDepth rest with
    | some nd => (decide (depth < nd), name)
    | none => (false, name)

/-- Replace the p-th node by f applied to it, leaving the rest unchanged
(the arena form of mutating one Python object). -/
def modifyAt : List Node → Nat → (Node → Node) → List Node
  | [], _, _ => []
  | n :: rest, 0, f => f n :: rest
  | n :: rest, p + 1, f => n :: modifyAt rest p f

/-- parent.children.append(node) of parse line 114, on the arena. -/
def appendChildAt (nodes : List Node) (p c : Nat) : List Node :=
  modifyAt nodes p (fun n => { n with children := n.children ++ [c] })

/-- The body of parse lines 92-120 for one meaningful line, acting on
(all_nodes, root, parent_stack).  The Python guard line_num == 0 or
root is None reduces to root = none, because the loop starts with root
reset to None and sets it at the first created node.  The stack keeps
Python order: index = depth slot, push at the end; the pop-while loop
(lines 108-109) is List.take depth; the slot write of line 120 is kept
although the take makes its guard always true. -/
def processLine (rest : List (List Char)) (depth : Nat) (name : List Char)
    (nodes : List Node) (root : Option Nat) (stack : List Nat) :
    List Node × Option Nat × List Nat :=
  let cls := classifyName depth name rest
  let idx := nodes.length
  match root with
  | none =>
    (nodes ++ [⟨cls.2, cls.1, depth, [], none⟩], some idx, [idx])
  | some r =>
    let stack1 := stack.take depth
    match stack1.getLast? with
    | none =>
      (nodes ++ [⟨cls.2, cls.1, depth, [], none⟩], some r,
        if stack1.length ≤ depth then stack1 ++ [idx] else stack1.set depth idx)
    | some p =>
      (appendChildAt nodes p idx ++ [⟨cls.2, cls.1, depth, [], some p⟩], some r,
        if stack1.length ≤ depth then stack1 ++ [idx] else stack1.set depth idx)

/-- One iteration of the for-loop of parse (lines 65-120): blank lines
(line 66) and lines whose extracted name is empty (line 72) leave the
state unchanged; every other line runs processLine with the remaining
lines as the look-ahead window. -/
def stepState (st : List Node × Option Nat × List Nat)
    (rest : List (List Char)) (line : List Char) :
    List Node × Option Nat × List Nat :=
  if (stripChars line).isEmpty then st
  else if (parse_line line).2.isEmpty then st
  else processLine rest (parse_line line).1 (parse_line line).2 st.1 st.2.1 st.2.2

/-- The for-loop of parse over all lines.  lines[line_num + 1:] of the
look-ahead is exactly the tail passed to stepState. -/
def parseLines : List (List Char) → (List Node × Option Nat × List Nat) → ParseState
  | [], st => ⟨st.2.1, st.1⟩
  | line :: rest, st => parseLines rest (stepState st rest line)

/-- TreeParser.parse (lines 44-122): strip the text, split on newlines,
run the loop from the reset state.  The Python guard if not lines is
dead because split always yields at least one line; the returned value
of the Python method is the root field of the final state. -/
def parse (text : List Char) : ParseState :=
  parseLines (splitLines (stripChars text)) ([], none, [])

/-! ## Path derivation (src/parser.py lines 23-34 and 176-199). -/

/-- The parent walk of TreeNode.get_full_path lines 26-29, collecting
names from the node up to the root.  In every state parse produces,
parent indices strictly decrease, so a fuel of all_nodes.length is
enough for the full chain; the fuel only makes the recursion evidently
total. -/
def pathParts (nodes : List Node) : Nat → Nat → List (List Char)
  | 0, _ => []
  | fuel + 1, i =>
    match nodes[i]? with
    | none => []
    | some n =>
      match n.parent with
      | none => [n.name]
      | some p => n.name :: pathParts nodes fuel p

/-- Python slash.join(parts). -/
def joinSlash : List (List Char) → List Char
  | [] => []
  | [p] => p
  | p :: rest => p ++ '/' :: joinSlash rest

/-- TreeNode.get_full_path (lines 23-34): reverse the collected parts,
join with slashes, and prefix the base path (with its trailing slashes
stripped) when it is non-empty. -/
def get_full_path (nodes : List Node) (i : Nat) (base_path : List Char) : List Char :=
  let parts := (pathParts nodes nodes.length i).reverse
  if base_path.isEmpty then joinSlash parts
  else rstripSlash base_path ++ '/' :: joinSlash parts

/-- TreeParser._collect_paths (lines 193-199): the node's own path
followed by the paths of its children in stored order.  Children indices
strictly increase along any chain parse produces, so fuel
all_nodes.length again covers the whole traversal. -/
def collect_paths (nodes : List Node) (base_path : List Char) :
    Nat → Nat → List (List Char × Bool)
  | 0, _ => []
  | fuel + 1, i =>
    match nodes[i]? with
    | none => []
    | some n =>
      (get_full_path nodes i base_path, n.is_directory) ::
        (n.children.map (fun c => collect_paths nodes base_path fuel c)).flatten

/-- TreeParser.get_all_paths (lines 176-191): empty when there is no
root, otherwise the pre-order traversal from the root. -/
def get_all_paths (st : ParseState) (base_path : List Char) : List (List Char × Bool) :=
  match st.root with
  | none => []
  | some r => collect_paths st.all_nodes base_path st.all_nodes.length r

/-- The summary record returned by TreeParser.get_summary. -/
structure Summary where
  total : Nat
  directories : Nat
  files : Nat
deriving DecidableEq

/-- TreeParser.get_summary (lines 201-213): zero on an empty all_nodes
list, otherwise the length and the two classification counts over the
flat list. -/
def get_summary (st : ParseState) : Summary :=
  if st.all_nodes.isEmpty then ⟨0, 0, 0⟩
  else
    ⟨st.all_nodes.length,
      (st.all_nodes.filter (fun n => n.is_directory)).length,
      (st.all_nodes.filter (fun n => !n.is_directory)).length⟩

/-! ## Derived notions used by the theorems (not part of the source). -/

/-- The lines parse iterates over for a given input text. -/
def linesOf (text : List Char) : List (List Char) :=
  splitLines (stripChars text)

/-- A line is meaningful when it is neither blank nor extracting to an
empty name: exactly the lines that create a node in parse. -/
def meaningful (l : List Char) : Bool :=
  !(stripChars l).isEmpty && !((parse_line l).2).isEmpty

/-- The extracted depths of the meaningful lines, in order. -/
def depthsOf (lines : List (List Char)) : List Nat :=
  (lines.filter meaningful).map (fun l => (parse_line l).1)

/-- The extracted depth of the first meaningful line, if any. -/
def firstMeaningfulDepth : List (List Char) → Option Nat
  | [] => none
  | l :: rest => if meaningful l then some (parse_line l).1 else firstMeaningfulDepth rest

/-- No-depth-jump bookkeeping: given the current parent-stack length,
check that every upcoming extracted depth is at most the stack length it
will meet (the stack length after a node of depth d becomes
min len d + 1). -/
def noJumpsGo : Nat → List Nat → Bool
  | _, [] => true
  | len, d :: ds => decide (d ≤ len) && noJumpsGo (min len d + 1) ds

/-- A depth sequence is jump-free when the first (root) depth is 0 and
afterwards no depth exceeds the stack length reached so far. -/
def noJumps : List Nat → Bool
  | [] => true
  | d :: ds => decide (d = 0) && noJumpsGo 1 ds

/-- The indices visited by the pre-order traversal of get_all_paths,
with the same fuel scheme as collect_paths. -/
def collectIdx (nodes : List Node) : Nat → Nat → List Nat
  | 0, _ => []
  | fuel + 1, i =>
    match nodes[i]? with
    | none => []
    | some n => i :: (n.children.map (fun c => collectIdx nodes fuel c)).flatten

/-- The indices reachable from the root, i.e. the nodes get_all_paths
visits. -/
def reachIdx (st : ParseState) : List Nat :=
  match st.root with
  | none => []
  | some r => collectIdx st.all_nodes st.all_nodes.length r

/-! ## Toolbox lemmas about the arena and list helpers. -/

/-- The projection of a node that parse never mutates after creation:
everything except the children list. -/
def coreOf (n : Node) : List Char × Bool × Nat × Option Nat :=
  (n.name, n.is_directory, n.depth, n.parent)

lemma modifyAt_length (nodes : List Node) (p : Nat) (f : Node → Node) :
    (modifyAt nodes p f).length = nodes.length := by
  induction nodes generalizing p with
  | nil => rfl
  | cons n rest ih => cases p <;> simp [modifyAt, ih]

lemma modifyAt_getElem?_eq (nodes : List Node) (p : Nat) (f : Node → Node) :
    (modifyAt nodes p f)[p]? = (nodes[p]?).map f := by
  induction nodes generalizing p with
  | nil => simp [modifyAt]
  | cons n rest ih => cases p <;> simp [modifyAt, ih]

lemma modifyAt_getElem?_ne (nodes : List Node) (p : Nat) (f : Node → Node)
    (i : Nat) (h : i ≠ p) : (modifyAt nodes p f)[i]? = nodes[i]? := by
  induction nodes generalizing p i with
  | nil => simp [modifyAt]
  | cons n rest ih =>
    cases p with
    | zero => cases i with
      | zero => exact absurd rfl h
      | succ j => simp [modifyAt]
    | succ q => cases i with
      | zero => simp [modifyAt]
      | succ j => simpa [modifyAt] using ih q j (fun hc => h (by omega))

lemma appendChildAt_length (nodes : List Node) (p c : Nat) :
    (appendChildAt nodes p c).length = nodes.length := by
  simp [appendChildAt, modifyAt_length]

lemma appendChildAt_core (nodes : List Node) (p c i : Nat) :
    ((appendChildAt nodes p c)[i]?).map coreOf = (nodes[i]?).map coreOf := by
  by_cases h : i = p
  · subst h
    rw [appendChildAt, modifyAt_getElem?_eq]
    cases nodes[i]? <;> simp [coreOf]
  · rw [appendChildAt, modifyAt_getElem?_ne _ _ _ _ h]

lemma appendChildAt_getElem? (nodes : List Node) (p c i : Nat) :
    (appendChildAt nodes p c)[i]? =
      if i = p then (nodes[p]?).map (fun n => { n with children := n.children ++ [c] })
      else nodes[i]? := by
  by_cases h : i = p
  · subst h; simp [appendChildAt, modifyAt_getElem?_eq]
  · simp [appendChildAt, modifyAt_getElem?_ne _ _ _ _ h, h]

lemma appendChildAt_concat_getElem? (nodes : List Node) (p c : Nat) (node : Node) :
    (appendChildAt nodes p c ++ [node])[nodes.length]? = some node := by
  have h0 := List.getElem?_concat_length (appendChildAt nodes p c) node
  rw [appendChildAt_length] at h0
  exact h0

lemma head?_dropWhile_not {α : Type} (p : α → Bool) :
    ∀ (l : List α) (a : α), (l.dropWhile p).head? = some a → p a = false := by
  intro l
  induction l with
  | nil => intro a h; simp [List.dropWhile] at h
  | cons c rest ih =>
    intro a h
    by_cases hc : p c
    · exact ih a (by simpa [List.dropWhile, hc] using h)
    · rw [List.dropWhile_cons_of_neg hc] at h
      simp only [List.head?_cons, Option.some.injEq] at h
      subst h
      exact Bool.eq_false_iff.mpr hc

lemma getLast?_reverse {α : Type} (l : List α) : l.reverse.getLast? = l.head? := by
  have := List.head?_reverse l.reverse
  simpa using this.symm

lemma rstripSlash_no_slash (cs : List Char) : (rstripSlash cs).getLast? ≠ some '/' := by
  rw [rstripSlash, getLast?_reverse]
  intro h
  have := head?_dropWhile_not (fun c => c = '/') cs.reverse '/' h
  simp at this

lemma classifyName_no_slash (d : Nat) (nm : List Char) (rest : List (List Char)) :
    ((classifyName d nm rest).2).getLast? ≠ some '/' := by
  unfold classifyName
  by_cases h : endsWithSlash nm
  · simp [h, rstripSlash_no_slash]
  · have hn : ¬ nm.getLast? = some '/' := by
      simpa [endsWithSlash] using h
    cases hnd : nextDepth rest <;> simp [h, hnd, hn]

lemma take_length_le {α : Type} (l : List α) (d : Nat) : (l.take d).length ≤ d := by
  simp [List.length_take]

/-! ## Basic facts about the parse loop state evolution. -/

lemma processLine_length (rest : List (List Char)) (d : Nat) (nm : List Char)
    (nodes : List Node) (root : Option Nat) (stack : List Nat) :
    (processLine rest d nm nodes root stack).1.length = nodes.length + 1 := by
  unfold processLine
  cases root with
  | none => simp
  | some r =>
    cases h : (stack.take d).getLast? <;> simp [h, appendChildAt_length]

lemma processLine_root (rest : List (List Char)) (d : Nat) (nm : List Char)
    (nodes : List Node) (root : Option Nat) (stack : List Nat) :
    (processLine rest d nm nodes root stack).2.1 =
      some (match root with | none => nodes.length | some r => r) := by
  unfold processLine
  cases root with
  | none => simp
  | some r => cases h : (stack.take d).getLast? <;> simp [h]

lemma processLine_core (rest : List (List Char)) (d : Nat) (nm : List Char)
    (nodes : List Node) (root : Option Nat) (stack : List Nat) (i : Nat)
    (h : i < nodes.length) :
    ((processLine rest d nm nodes root stack).1[i]?).map coreOf = (nodes[i]?).map coreOf := by
  unfold processLine
  cases root with
  | none => simp [List.getElem?_append_left h]
  | some r =>
    cases hl : (stack.take d).getLast? with
    | none => simp [hl, List.getElem?_append_left h]
    | some p =>
      have hlen : i < (appendChildAt nodes p nodes.length).length := by
        rw [appendChildAt_length]; exact h
      simp only [hl, List.getElem?_append_left hlen]
      exact appendChildAt_core nodes p nodes.length i

lemma stepState_length (st : List Node × Option Nat × List Nat)
    (rest : List (List Char)) (line : List Char) :
    (stepState st rest line).1.length =
      st.1.length + (if meaningful line then 1 else 0) := by
  unfold stepState meaningful
  by_cases hb : (stripChars line).isEmpty
  · simp [hb]
  · by_cases hn : ((parse_line line).2).isEmpty
    · simp [hb, hn]
    · simp [hb, hn, processLine_length]

lemma stepState_root_some (st : List Node × Option Nat × List Nat)
    (rest : List (List Char)) (line : List Char) (r : Nat) (h : st.2.1 = some r) :
    (stepState st rest line).2.1 = some r := by
  unfold stepState
  by_cases hb : (stripChars line).isEmpty
  · simp [hb, h]
  · by_cases hn : ((parse_line line).2).isEmpty
    · simp [hb, hn, h]
    · simp [hb, hn, processLine_root, h]

lemma stepState_core (st : List Node × Option Nat × List Nat)
    (rest : List (List Char)) (line : List Char) (i : Nat) (h : i < st.1.length) :
    ((stepState st rest line).1[i]?).map coreOf = (st.1[i]?).map coreOf := by
  unfold stepState
  by_cases hb : (stripChars line).isEmpty
  · simp [hb]
  · by_cases hn : ((parse_line line).2).isEmpty
    · simp [hb, hn]
    · simp [hb, hn, processLine_core _ _ _ _ _ _ _ h]

lemma parseLines_root_some : ∀ (L : List (List Char)) st (r : Nat),
    st.2.1 = some r → (parseLines L st).root = some r := by
  intro L
  induction L with
  | nil => intro st r h; simpa [parseLines] using h
  | cons line rest ih =>
    intro st r h
    exact ih _ r (stepState_root_some st rest line r h)

lemma parseLines_length : ∀ (L : List (List Char)) st,
    (parseLines L st).all_nodes.length = st.1.length + (L.filter meaningful).length := by
  intro L
  induction L with
  | nil => intro st; simp [parseLines]
  | cons line rest ih =>
    intro st
    rw [parseLines, ih, stepState_length]
    by_cases hm : meaningful line <;> simp [List.filter_cons, hm] <;> omega

lemma parseLines_core : ∀ (L : List (List Char)) st (i : Nat), i < st.1.length →
    ((parseLines L st).all_nodes[i]?).map coreOf = (st.1[i]?).map coreOf := by
  intro L
  induction L with
  | nil => intro st i _; simp [parseLines]
  | cons line rest ih =>
    intro st i h
    have h2 : i < (stepState st rest line).1.length := by
      rw [stepState_length]
      by_cases hm : meaningful line <;> simp [hm] <;> omega
    rw [parseLines, ih _ i h2, stepState_core st rest line i h]

lemma stepState_not_meaningful (st : List Node × Option Nat × List Nat)
    (rest : List (List Char)) (line : List Char) (hm : meaningful line = false) :
    stepState st rest line = st := by
  unfold meaningful at hm
  unfold stepState
  by_cases hb : (stripChars line).isEmpty
  · simp [hb]
  · by_cases hn : ((parse_line line).2).isEmpty
    · simp [hb, hn]
    · simp [hb, hn] at hm

lemma stepState_meaningful_none (st : List Node × Option Nat × List Nat)
    (rest : List (List Char)) (line : List Char) (hm : meaningful line = true)
    (hr : st.2.1 = none) :
    stepState st rest line =
      (st.1 ++ [⟨(classifyName (parse_line line).1 (parse_line line).2 rest).2,
                 (classifyName (parse_line line).1 (parse_line line).2 rest).1,
                 (parse_line line).1, [], none⟩],
       some st.1.length, [st.1.length]) := by
  unfold meaningful at hm
  simp only [Bool.and_eq_true, Bool.not_eq_true'] at hm
  unfold stepState
  simp only [hm.1, hm.2, Bool.false_eq_true, if_false]
  unfold processLine
  rw [hr]

lemma map_core_depth_parent {o1 : Option Node} {o2 : Option Node}
    (h : o1.map coreOf = o2.map coreOf) :
    o1.map (fun n => (n.depth, n.parent)) = o2.map (fun n => (n.depth, n.parent)) := by
  have e : ∀ o : Option Node, o.map (fun n => (n.depth, n.parent)) =
      (o.map coreOf).map (fun c => (c.2.2.1, c.2.2.2)) := by
    intro o; cases o <;> rfl
  rw [e o1, e o2, h]

lemma parseLines_none : ∀ (L : List (List Char)) (nodes : List Node) (stack : List Nat),
    (parseLines L (nodes, none, stack)).root =
      (firstMeaningfulDepth L).map (fun _ => nodes.length)
    ∧ (∀ d, firstMeaningfulDepth L = some d →
        ((parseLines L (nodes, none, stack)).all_nodes[nodes.length]?).map
          (fun n => (n.depth, n.parent)) = some (d, none)) := by
  intro L
  induction L with
  | nil =>
    intro nodes stack
    refine ⟨by simp [parseLines, firstMeaningfulDepth], ?_⟩
    intro d hd
    simp [firstMeaningfulDepth] at hd
  | cons line rest ih =>
    intro nodes stack
    by_cases hm : meaningful line
    · have hstep := stepState_meaningful_none (nodes, none, stack) rest line hm rfl
      have hfd : firstMeaningfulDepth (line :: rest) = some (parse_line line).1 := by
        simp [firstMeaningfulDepth, hm]
      constructor
      · rw [parseLines, hstep, parseLines_root_some rest _ nodes.length rfl, hfd]
        rfl
      · intro d hd
        rw [hfd] at hd
        have hdval : d = (parse_line line).1 := by
          simpa using hd.symm
        subst hdval
        rw [parseLines, hstep]
        have hlt : nodes.length <
            ((nodes ++ [⟨(classifyName (parse_line line).1 (parse_line line).2 rest).2,
              (classifyName (parse_line line).1 (parse_line line).2 rest).1,
              (parse_line line).1, [], none⟩], some nodes.length,
              [nodes.length]) : List Node × Option Nat × List Nat).1.length := by
          simp
        have hcore := parseLines_core rest _ nodes.length hlt
        have hmc := map_core_depth_parent hcore
        rw [hmc]
        simp [List.getElem?_concat_length]
    · have hmf : meaningful line = false := by simpa using hm
      have hfd : firstMeaningfulDepth (line :: rest) = firstMeaningfulDepth rest := by
        simp [firstMeaningfulDepth, hmf]
      rw [parseLines, stepState_not_meaningful _ _ _ hmf, hfd]
      exact ih nodes stack

lemma firstMeaningfulDepth_none_iff : ∀ (L : List (List Char)),
    firstMeaningfulDepth L = none ↔ ∀ l ∈ L, meaningful l = false := by
  intro L
  induction L with
  | nil => simp [firstMeaningfulDepth]
  | cons line rest ih =>
    by_cases hm : meaningful line
    · simp [firstMeaningfulDepth, hm]
    · have hmf : meaningful line = false := by simpa using hm
      simp [firstMeaningfulDepth, hmf, ih]

lemma parse_root_eq (text : List Char) :
    (parse text).root = (firstMeaningfulDepth (linesOf text)).map (fun _ => 0) :=
  (parseLines_none (linesOf text) [] []).1

lemma parse_node0 (text : List Char) (d : Nat)
    (h : firstMeaningfulDepth (linesOf text) = some d) :
    ((parse text).all_nodes[0]?).map (fun n => (n.depth, n.parent)) = some (d, none) :=
  (parseLines_none (linesOf text) [] []).2 d h

lemma parse_root_zero (text : List Char) (r : Nat) (h : (parse text).root = some r) :
    r = 0 := by
  rw [parse_root_eq] at h
  cases hf : firstMeaningfulDepth (linesOf text) <;> rw [hf] at h <;> simp at h
  omega

lemma parse_length (text : List Char) :
    (parse text).all_nodes.length = ((linesOf text).filter meaningful).length := by
  have := parseLines_length (linesOf text) ([], none, [])
  simpa using this

lemma parse_root_none_nodes (text : List Char) (h : (parse text).root = none) :
    (parse text).all_nodes = [] := by
  rw [parse_root_eq] at h
  cases hf : firstMeaningfulDepth (linesOf text) with
  | none =>
    have hall := (firstMeaningfulDepth_none_iff (linesOf text)).mp hf
    have hfil : (linesOf text).filter meaningful = [] := by
      rw [List.filter_eq_nil_iff]
      intro l hl
      simp [hall l hl]
    have := parse_length text
    rw [hfil] at this
    exact List.length_eq_zero.mp (by simpa using this)
  | some d => rw [hf] at h; simp at h

lemma get_summary_total (st : ParseState) :
    (get_summary st).total = st.all_nodes.length := by
  unfold get_summary
  by_cases h : st.all_nodes.isEmpty
  · simp [h, List.isEmpty_iff.mp h]
  · simp [h]

lemma length_filter_not (l : List Node) (p : Node → Bool) :
    (l.filter p).length + (l.filter (fun n => !p n)).length = l.length := by
  induction l with
  | nil => simp
  | cons n rest ih =>
    by_cases h : p n <;> simp [List.filter_cons, h] <;> omega

lemma get_summary_files (st : ParseState) :
    (get_summary st).files = (get_summary st).total - (get_summary st).directories := by
  unfold get_summary
  by_cases h : st.all_nodes.isEmpty
  · simp [h]
  · have := length_filter_not st.all_nodes (fun n => n.is_directory)
    simp only [h, Bool.false_eq_true, if_false]
    omega

/-! ## Invariant: stored names never end with a slash (for C9). -/

/-- Every node in the arena has a name with no trailing slash. -/
def NameInv (nodes : List Node) : Prop :=
  ∀ (i : Nat) (n : Node), nodes[i]? = some n → n.name.getLast? ≠ some '/'

lemma getElem?_lt_of_some {α : Type} {l : List α} {i : Nat} {a : α}
    (h : l[i]? = some a) : i < l.length := by
  by_contra hc
  rw [List.getElem?_eq_none (by omega)] at h
  exact Option.noConfusion h

lemma processLine_nameInv (rest : List (List Char)) (d : Nat) (nm : List Char)
    (nodes : List Node) (root : Option Nat) (stack : List Nat) (h : NameInv nodes) :
    NameInv (processLine rest d nm nodes root stack).1 := by
  unfold NameInv
  intro i n hi
  have hlen := getElem?_lt_of_some hi
  rw [processLine_length] at hlen
  by_cases hlt : i < nodes.length
  · have hcore := processLine_core rest d nm nodes root stack i hlt
    rw [hi] at hcore
    cases ho : nodes[i]? with
    | none => rw [ho] at hcore; simp at hcore
    | some m =>
      rw [ho] at hcore
      simp only [Option.map_some', Option.some.injEq, coreOf, Prod.mk.injEq] at hcore
      rw [hcore.1]
      exact h i m ho
  · have hieq : i = nodes.length := by omega
    subst hieq
    unfold processLine at hi
    cases root with
    | none =>
      simp only [List.getElem?_concat_length, Option.some.injEq] at hi
      rw [← hi]
      exact classifyName_no_slash d nm rest
    | some r =>
      cases hl : (stack.take d).getLast? with
      | none =>
        simp only [hl, List.getElem?_concat_length, Option.some.injEq] at hi
        rw [← hi]
        exact classifyName_no_slash d nm rest
      | some p =>
        have hcc := appendChildAt_concat_getElem? nodes p nodes.length
          ⟨(classifyName d nm rest).2, (classifyName d nm rest).1, d, [], some p⟩
        simp only [hl] at hi
        rw [hcc] at hi
        rw [← Option.some.injEq] at hi
        simp only [Option.some.injEq] at hi
        rw [← hi]
        exact classifyName_no_slash d nm rest

lemma stepState_nameInv (st : List Node × Option Nat × List Nat)
    (rest : List (List Char)) (line : List Char) (h : NameInv st.1) :
    NameInv (stepState st rest line).1 := by
  unfold stepState
  by_cases hb : (stripChars line).isEmpty
  · simpa [hb] using h
  · by_cases hn : ((parse_line line).2).isEmpty
    · simpa [hb, hn] using h
    · simpa [hb, hn] using
        processLine_nameInv rest (parse_line line).1 (parse_line line).2 st.1 st.2.1 st.2.2 h

lemma parseLines_nameInv : ∀ (L : List (List Char)) st,
    NameInv st.1 → NameInv (parseLines L st).all_nodes := by
  intro L
  induction L with
  | nil => intro st h; simpa [parseLines] using h
  | cons line rest ih =>
    intro st h
    exact ih _ (stepState_nameInv st rest line h)

lemma parse_nameInv (text : List Char) : NameInv (parse text).all_nodes := by
  apply parseLines_nameInv
  unfold NameInv
  intro i n hi
  simp at hi

/-! ## Invariant: children lists and parent pointers agree (for C5). -/

/-- Every index stored in a children list belongs to a node whose parent
pointer is the owner of that children list. -/
def ChildParent (nodes : List Node) : Prop :=
  ∀ (j : Nat) (m : Node) (c : Nat), nodes[j]? = some m → c ∈ m.children →
    ∃ nc : Node, nodes[c]? = some nc ∧ nc.parent = some j

/-- Every stack entry is a valid arena index. -/
def StackOk (nodes : List Node) (stack : List Nat) : Prop :=
  ∀ i ∈ stack, i < nodes.length

lemma processLine_cp (rest : List (List Char)) (d : Nat) (nm : List Char)
    (nodes : List Node) (root : Option Nat) (stack : List Nat)
    (hcp : ChildParent nodes) (hsv : StackOk nodes stack) :
    ChildParent (processLine rest d nm nodes root stack).1
    ∧ StackOk (processLine rest d nm nodes root stack).1
        (processLine rest d nm nodes root stack).2.2 := by
  have hif : (stack.take d).length ≤ d := take_length_le stack d
  unfold ChildParent StackOk
  unfold processLine
  cases root with
  | none =>
    constructor
    · intro j m c hj hc
      have hjl := getElem?_lt_of_some hj
      simp only [List.length_append, List.length_cons, List.length_nil] at hjl
      by_cases hjlt : j < nodes.length
      · rw [List.getElem?_append_left hjlt] at hj
        obtain ⟨nc, hnc, hp⟩ := hcp j m c hj hc
        exact ⟨nc, by rw [List.getElem?_append_left (getElem?_lt_of_some hnc)]; exact hnc, hp⟩
      · have : j = nodes.length := by omega
        subst this
        simp only [List.getElem?_concat_length, Option.some.injEq] at hj
        rw [← hj] at hc
        simp at hc
    · intro i hi
      simp only [List.mem_singleton] at hi
      subst hi
      simp
  | some r =>
    cases hl : (stack.take d).getLast? with
    | none =>
      simp only [hl, hif, if_true]
      constructor
      · intro j m c hj hc
        have hjl := getElem?_lt_of_some hj
        simp only [List.length_append, List.length_cons, List.length_nil] at hjl
        by_cases hjlt : j < nodes.length
        · rw [List.getElem?_append_left hjlt] at hj
          obtain ⟨nc, hnc, hp⟩ := hcp j m c hj hc
          exact ⟨nc, by rw [List.getElem?_append_left (getElem?_lt_of_some hnc)]; exact hnc, hp⟩
        · have : j = nodes.length := by omega
          subst this
          simp only [List.getElem?_concat_length, Option.some.injEq] at hj
          rw [← hj] at hc
          simp at hc
      · intro i hi
        simp only [List.mem_append, List.mem_singleton] at hi
        rcases hi with hi | hi
        · have := hsv i (List.mem_of_mem_take hi)
          simp only [List.length_append, List.length_cons, List.length_nil]
          omega
        · subst hi; simp
    | some p =>
      have hp_lt : p < nodes.length := by
        have : p ∈ stack.take d := by
          have h1 := List.getLast?_eq_getElem? (stack.take d)
          rw [hl] at h1
          have h2 := h1.symm
          exact List.getElem?_mem h2
        exact hsv p (List.mem_of_mem_take this)
      simp only [hl, hif, if_true]
      constructor
      · intro j m c hj hc
        have hjl := getElem?_lt_of_some hj
        simp only [List.length_append, appendChildAt_length, List.length_cons,
          List.length_nil] at hjl
        by_cases hjlt : j < nodes.length
        · have hjlt2 : j < (appendChildAt nodes p nodes.length).length := by
            rw [appendChildAt_length]; exact hjlt
          rw [List.getElem?_append_left hjlt2, appendChildAt_getElem?] at hj
          by_cases hjp : j = p
          · subst hjp
            rw [if_pos rfl] at hj
            cases ho : nodes[j]? with
            | none => rw [ho] at hj; simp at hj
            | some mp =>
              rw [ho] at hj
              simp only [Option.map_some', Option.some.injEq] at hj
              rw [← hj] at hc
              simp only [List.mem_append, List.mem_singleton] at hc
              rcases hc with hc | hc
              · obtain ⟨nc, hnc, hpar⟩ := hcp j mp c ho hc
                have hcl := getElem?_lt_of_some hnc
                have hcl2 : c < (appendChildAt nodes j nodes.length).length := by
                  rw [appendChildAt_length]; exact hcl
                by_cases hcj : c = j
                · subst hcj
                  refine ⟨{ nc with children := nc.children ++ [nodes.length] }, ?_,
                    by simpa using hpar⟩
                  rw [List.getElem?_append_left hcl2, appendChildAt_getElem?, if_pos rfl, hnc]
                  rfl
                · refine ⟨nc, ?_, hpar⟩
                  rw [List.getElem?_append_left hcl2, appendChildAt_getElem?, if_neg hcj]
                  exact hnc
              · subst hc
                exact ⟨⟨(classifyName d nm rest).2, (classifyName d nm rest).1, d, [], some j⟩,
                  appendChildAt_concat_getElem? nodes j nodes.length _, rfl⟩
          · rw [if_neg hjp] at hj
            obtain ⟨nc, hnc, hpar⟩ := hcp j m c hj hc
            have hcl := getElem?_lt_of_some hnc
            have hcl2 : c < (appendChildAt nodes p nodes.length).length := by
              rw [appendChildAt_length]; exact hcl
            by_cases hcpq : c = p
            · subst hcpq
              refine ⟨{ nc with children := nc.children ++ [nodes.length] }, ?_, by simpa using hpar⟩
              rw [List.getElem?_append_left hcl2, appendChildAt_getElem?, if_pos rfl, hnc]
              rfl
            · refine ⟨nc, ?_, hpar⟩
              rw [List.getElem?_append_left hcl2, appendChildAt_getElem?, if_neg hcpq]
              exact hnc
        · have : j = nodes.length := by omega
          subst this
          have hcc := appendChildAt_concat_getElem? nodes p nodes.length
            ⟨(classifyName d nm rest).2, (classifyName d nm rest).1, d, [], some p⟩
          rw [hcc] at hj
          simp only [Option.some.injEq] at hj
          rw [← hj] at hc
          simp at hc
      · intro i hi
        simp only [List.mem_append, List.mem_singleton] at hi
        simp only [List.length_append, appendChildAt_length, List.length_cons, List.length_nil]
        rcases hi with hi | hi
        · have := hsv i (List.mem_of_mem_take hi)
          omega
        · subst hi; omega

lemma stepState_cp (st : List Node × Option Nat × List Nat)
    (rest : List (List Char)) (line : List Char)
    (hcp : ChildParent st.1) (hsv : StackOk st.1 st.2.2) :
    ChildParent (stepState st rest line).1
    ∧ StackOk (stepState st rest line).1 (stepState st rest line).2.2 := by
  unfold stepState
  by_cases hb : (stripChars line).isEmpty
  · simpa [hb] using ⟨hcp, hsv⟩
  · by_cases hn : ((parse_line line).2).isEmpty
    · simpa [hb, hn] using ⟨hcp, hsv⟩
    · simpa [hb, hn] using
        processLine_cp rest (parse_line line).1 (parse_line line).2 st.1 st.2.1 st.2.2 hcp hsv

lemma parseLines_cp : ∀ (L : List (List Char)) st,
    ChildParent st.1 → StackOk st.1 st.2.2 →
    ChildParent (parseLines L st).all_nodes := by
  intro L
  induction L with
  | nil => intro st h _; simpa [parseLines] using h
  | cons line rest ih =>
    intro st hcp hsv
    obtain ⟨h1, h2⟩ := stepState_cp st rest line hcp hsv
    exact ih _ h1 h2

lemma parse_cp (text : List Char) : ChildParent (parse text).all_nodes := by
  apply parseLines_cp
  · unfold ChildParent
    intro j m c hj
    simp at hj
  · unfold StackOk
    intro i hi
    simp at hi

/-! ## Membership in the pre-order index traversal (for C5). -/

lemma collectIdx_mem (nodes : List Node) : ∀ (fuel j i : Nat),
    i ∈ collectIdx nodes fuel j →
    i = j ∨ ∃ (k : Nat) (m : Node), nodes[k]? = some m ∧ i ∈ m.children := by
  intro fuel
  induction fuel with
  | zero => intro j i hi; simp [collectIdx] at hi
  | succ f ih =>
    intro j i hi
    unfold collectIdx at hi
    cases hn : nodes[j]? with
    | none => rw [hn] at hi; simp at hi
    | some n =>
      rw [hn] at hi
      simp only [List.mem_cons, List.mem_flatten, List.mem_map] at hi
      rcases hi with hi | ⟨l, ⟨c, hc, hl⟩, hil⟩
      · exact Or.inl hi
      · rw [← hl] at hil
        rcases ih c i hil with hic | hrec
        · exact Or.inr ⟨j, n, hn, by rw [hic]; exact hc⟩
        · exact Or.inr hrec

/-! ## Invariants for the depth law (for C4): when the input has no
depth jumps, every stack slot j holds a node whose depth field is j. -/

/-- Stack slot j always holds a node of depth j. -/
def StackInv (nodes : List Node) (stack : List Nat) : Prop :=
  ∀ (j x : Nat), stack[j]? = some x → ∃ m : Node, nodes[x]? = some m ∧ m.depth = j

/-- Every node with a parent is one level deeper than that parent. -/
def ParentInv (nodes : List Node) : Prop :=
  ∀ (i p : Nat) (ni np : Node), nodes[i]? = some ni → ni.parent = some p →
    nodes[p]? = some np → ni.depth = np.depth + 1

/-- Parent pointers go to strictly earlier arena slots. -/
def ParentBound (nodes : List Node) : Prop :=
  ∀ (i : Nat) (n : Node) (p : Nat), nodes[i]? = some n → n.parent = some p → p < i

/-- The no-jump condition relative to the current loop state: before the
root exists the whole depth sequence must be jump-free, afterwards it is
checked against the current stack length. -/
def okDepths (root : Option Nat) (len : Nat) (ds : List Nat) : Bool :=
  match root with
  | none => noJumps ds
  | some _ => noJumpsGo len ds

lemma appendChildAt_fields {nodes : List Node} {p c i : Nat} {n : Node}
    (h : (appendChildAt nodes p c)[i]? = some n) :
    ∃ m : Node, nodes[i]? = some m ∧ n.depth = m.depth ∧ n.parent = m.parent := by
  rw [appendChildAt_getElem?] at h
  by_cases hip : i = p
  · rw [if_pos hip] at h
    cases ho : nodes[p]? with
    | none => rw [ho] at h; simp at h
    | some m =>
      rw [ho] at h
      simp only [Option.map_some', Option.some.injEq] at h
      exact ⟨m, by rw [hip]; exact ho, by rw [← h], by rw [← h]⟩
  · rw [if_neg hip] at h
    exact ⟨n, h, rfl, rfl⟩

lemma appendChildAt_fields_of {nodes : List Node} {p c i : Nat} {m : Node}
    (h : nodes[i]? = some m) :
    ∃ n : Node, (appendChildAt nodes p c)[i]? = some n ∧ n.depth = m.depth ∧ n.parent = m.parent := by
  by_cases hip : i = p
  · subst hip
    rw [appendChildAt_getElem?, if_pos rfl, h]
    exact ⟨_, rfl, rfl, rfl⟩
  · rw [appendChildAt_getElem?, if_neg hip]
    exact ⟨m, h, rfl, rfl⟩

lemma processLine_depthInv (rest : List (List Char)) (dp : Nat) (nm : List Char)
    (nodes : List Node) (root : Option Nat) (stack : List Nat)
    (hsi : StackInv nodes stack) (hpi : ParentInv nodes) (hpb : ParentBound nodes)
    (hd : match root with | none => dp = 0 | some _ => dp ≤ stack.length) :
    StackInv (processLine rest dp nm nodes root stack).1
        (processLine rest dp nm nodes root stack).2.2
    ∧ ParentInv (processLine rest dp nm nodes root stack).1
    ∧ ParentBound (processLine rest dp nm nodes root stack).1
    ∧ (processLine rest dp nm nodes root stack).2.2.length =
        (match root with | none => 1 | some _ => min stack.length dp + 1) := by
  have hif : (stack.take dp).length ≤ dp := take_length_le stack dp
  unfold StackInv ParentInv ParentBound
  unfold processLine
  cases root with
  | none =>
    simp only at hd
    subst hd
    refine ⟨?_, ?_, ?_, by simp⟩
    · intro j x hj
      simp only [List.getElem?_eq_some_iff] at hj
      obtain ⟨hjlt, hx⟩ := hj
      simp only [List.length_singleton] at hjlt
      have hj0 : j = 0 := by omega
      subst hj0
      simp only [List.getElem_singleton] at hx
      subst hx
      exact ⟨_, List.getElem?_concat_length _ _, rfl⟩
    · intro i p ni np hi hpar hp
      have hil := getElem?_lt_of_some hi
      simp only [List.length_append, List.length_singleton] at hil
      by_cases hilt : i < nodes.length
      · rw [List.getElem?_append_left hilt] at hi
        have hpl : p < i := hpb i ni p hi hpar
        have hplt : p < nodes.length := by omega
        rw [List.getElem?_append_left hplt] at hp
        exact hpi i p ni np hi hpar hp
      · have : i = nodes.length := by omega
        subst this
        rw [List.getElem?_concat_length] at hi
        simp only [Option.some.injEq] at hi
        rw [← hi] at hpar
        simp at hpar
    · intro i n p hi hpar
      have hil := getElem?_lt_of_some hi
      simp only [List.length_append, List.length_singleton] at hil
      by_cases hilt : i < nodes.length
      · rw [List.getElem?_append_left hilt] at hi
        exact hpb i n p hi hpar
      · have : i = nodes.length := by omega
        subst this
        rw [List.getElem?_concat_length] at hi
        simp only [Option.some.injEq] at hi
        rw [← hi] at hpar
        simp at hpar
  | some r =>
    simp only at hd
    have hlen1 : (stack.take dp).length = dp := by
      rw [List.length_take]
      omega
    cases hl : (stack.take dp).getLast? with
    | none =>
      have hnil : stack.take dp = [] := List.getLast?_eq_none_iff.mp hl
      have hdp0 : dp = 0 := by
        rw [hnil] at hlen1
        simpa using hlen1.symm
      subst hdp0
      simp only [List.take_zero, List.getLast?_nil, List.length_nil, Nat.zero_le, if_true,
        List.nil_append]
      refine ⟨?_, ?_, ?_, by simp⟩
      · intro j x hj
        simp only [List.getElem?_eq_some_iff] at hj
        obtain ⟨hjlt, hx⟩ := hj
        simp only [List.length_singleton] at hjlt
        have hj0 : j = 0 := by omega
        subst hj0
        simp only [List.getElem_singleton] at hx
        subst hx
        refine ⟨_, List.getElem?_concat_length _ _, ?_⟩
        rfl
      · intro i p ni np hi hpar hp
        have hil := getElem?_lt_of_some hi
        simp only [List.length_append, List.length_singleton] at hil
        by_cases hilt : i < nodes.length
        · rw [List.getElem?_append_left hilt] at hi
          have hpl : p < i := hpb i ni p hi hpar
          have hplt : p < nodes.length := by omega
          rw [List.getElem?_append_left hplt] at hp
          exact hpi i p ni np hi hpar hp
        · have : i = nodes.length := by omega
          subst this
          rw [List.getElem?_concat_length] at hi
          simp only [Option.some.injEq] at hi
          rw [← hi] at hpar
          simp at hpar
      · intro i n p hi hpar
        have hil := getElem?_lt_of_some hi
        simp only [List.length_append, List.length_singleton] at hil
        by_cases hilt : i < nodes.length
        · rw [List.getElem?_append_left hilt] at hi
          exact hpb i n p hi hpar
        · have : i = nodes.length := by omega
          subst this
          rw [List.getElem?_concat_length] at hi
          simp only [Option.some.injEq] at hi
          rw [← hi] at hpar
          simp at hpar
    | some p =>
      have hdp1 : 1 ≤ dp := by
        by_contra hc
        have : dp = 0 := by omega
        rw [this] at hl
        simp [List.take] at hl
      have hp_slot : stack[dp - 1]? = some p := by
        have h1 := List.getLast?_eq_getElem? (stack.take dp)
        rw [hl, hlen1] at h1
        have h2 : (stack.take dp)[dp - 1]? = some p := h1.symm
        rwa [List.getElem?_take_of_lt (by omega)] at h2
      obtain ⟨mp, hmp, hmp_depth⟩ := hsi (dp - 1) p hp_slot
      have hp_lt : p < nodes.length := getElem?_lt_of_some hmp
      simp only [hl, hif, if_true]
      refine ⟨?_, ?_, ?_, by rw [List.length_append, hlen1]; simp; omega⟩
      · intro j x hj
        have hjl := getElem?_lt_of_some hj
        simp only [List.length_append, hlen1, List.length_singleton] at hjl
        by_cases hjlt : j < dp
        · rw [List.getElem?_append_left (by rw [hlen1]; omega),
            List.getElem?_take_of_lt hjlt] at hj
          obtain ⟨m, hm, hm_depth⟩ := hsi j x hj
          obtain ⟨n2, hn2, hn2d, _⟩ := appendChildAt_fields_of (p := p) (c := nodes.length) hm
          have hxlt : x < (appendChildAt nodes p nodes.length).length := by
            rw [appendChildAt_length]
            exact getElem?_lt_of_some hm
          refine ⟨n2, ?_, by rw [hn2d, hm_depth]⟩
          rw [List.getElem?_append_left hxlt]
          exact hn2
        · have hjeq : j = dp := by omega
          have h3 := List.getElem?_concat_length (stack.take dp) nodes.length
          rw [hlen1] at h3
          rw [hjeq, h3] at hj
          have hx : x = nodes.length := by simpa using hj.symm
          subst hx
          rw [hjeq]
          exact ⟨_, appendChildAt_concat_getElem? nodes p nodes.length _, rfl⟩
      · intro i q ni np hi hpar hp
        have hil := getElem?_lt_of_some hi
        simp only [List.length_append, appendChildAt_length, List.length_singleton] at hil
        by_cases hilt : i < nodes.length
        · have hilt2 : i < (appendChildAt nodes p nodes.length).length := by
            rw [appendChildAt_length]; exact hilt
          rw [List.getElem?_append_left hilt2] at hi
          obtain ⟨mi, hmi, hmi_d, hmi_p⟩ := appendChildAt_fields hi
          rw [hmi_p] at hpar
          have hql : q < i := hpb i mi q hmi hpar
          have hqlt : q < nodes.length := by omega
          have hqlt2 : q < (appendChildAt nodes p nodes.length).length := by
            rw [appendChildAt_length]; exact hqlt
          rw [List.getElem?_append_left hqlt2] at hp
          obtain ⟨mq, hmq, hmq_d, _⟩ := appendChildAt_fields hp
          rw [hmi_d, hmq_d]
          exact hpi i q mi mq hmi hpar hmq
        · have : i = nodes.length := by omega
          subst this
          rw [appendChildAt_concat_getElem?] at hi
          simp only [Option.some.injEq] at hi
          rw [← hi] at hpar
          simp only [Option.some.injEq] at hpar
          subst hpar
          have hqlt2 : p < (appendChildAt nodes p nodes.length).length := by
            rw [appendChildAt_length]; exact hp_lt
          rw [List.getElem?_append_left hqlt2] at hp
          obtain ⟨mq, hmq, hmq_d, _⟩ := appendChildAt_fields hp
          have hmq_eq : mq = mp := by
            rw [hmq] at hmp
            simpa using hmp
          rw [← hi, hmq_d, hmq_eq, hmp_depth]
          show dp = dp - 1 + 1
          omega
      · intro i n q hi hpar
        have hil := getElem?_lt_of_some hi
        simp only [List.length_append, appendChildAt_length, List.length_singleton] at hil
        by_cases hilt : i < nodes.length
        · have hilt2 : i < (appendChildAt nodes p nodes.length).length := by
            rw [appendChildAt_length]; exact hilt
          rw [List.getElem?_append_left hilt2] at hi
          obtain ⟨mi, hmi, _, hmi_p⟩ := appendChildAt_fields hi
          rw [hmi_p] at hpar
          exact hpb i mi q hmi hpar
        · have : i = nodes.length := by omega
          subst this
          rw [appendChildAt_concat_getElem?] at hi
          simp only [Option.some.injEq] at hi
          rw [← hi] at hpar
          simp only [Option.some.injEq] at hpar
          omega

lemma stepState_meaningful (st : List Node × Option Nat × List Nat)
    (rest : List (List Char)) (line : List Char) (hm : meaningful line = true) :
    stepState st rest line =
      processLine rest (parse_line line).1 (parse_line line).2 st.1 st.2.1 st.2.2 := by
  unfold meaningful at hm
  simp only [Bool.and_eq_true, Bool.not_eq_true'] at hm
  unfold stepState
  simp [hm.1, hm.2]

lemma depthsOf_cons (line : List Char) (rest : List (List Char)) :
    depthsOf (line :: rest) =
      if meaningful line then (parse_line line).1 :: depthsOf rest else depthsOf rest := by
  unfold depthsOf
  by_cases hm : meaningful line <;> simp [List.filter_cons, hm]

lemma parseLines_depthInv : ∀ (L : List (List Char)) st,
    StackInv st.1 st.2.2 → ParentInv st.1 → ParentBound st.1 →
    okDepths st.2.1 st.2.2.length (depthsOf L) = true →
    ParentInv (parseLines L st).all_nodes := by
  intro L
  induction L with
  | nil => intro st _ hpi _ _; simpa [parseLines] using hpi
  | cons line rest ih =>
    intro st hsi hpi hpb hok
    rw [parseLines]
    by_cases hm : meaningful line
    · rw [depthsOf_cons, if_pos hm] at hok
      rw [stepState_meaningful st rest line hm]
      set d := (parse_line line).1 with hd_def
      cases hroot : st.2.1 with
      | none =>
        rw [hroot] at hok
        unfold okDepths noJumps at hok
        simp only [Bool.and_eq_true, decide_eq_true_eq] at hok
        obtain ⟨hd0, hgo⟩ := hok
        have hinv := processLine_depthInv rest d (parse_line line).2 st.1 none st.2.2
          hsi hpi hpb hd0
        apply ih _ hinv.1 hinv.2.1 hinv.2.2.1
        rw [processLine_root, hinv.2.2.2]
        unfold okDepths
        simpa using hgo
      | some r =>
        rw [hroot] at hok
        unfold okDepths noJumpsGo at hok
        simp only [Bool.and_eq_true, decide_eq_true_eq] at hok
        obtain ⟨hdle, hgo⟩ := hok
        have hinv := processLine_depthInv rest d (parse_line line).2 st.1 (some r) st.2.2
          hsi hpi hpb hdle
        apply ih _ hinv.1 hinv.2.1 hinv.2.2.1
        rw [processLine_root, hinv.2.2.2]
        unfold okDepths
        simpa using hgo
    · have hmf : meaningful line = false := by simpa using hm
      rw [depthsOf_cons, if_neg hm] at hok
      rw [stepState_not_meaningful st rest line hmf]
      exact ih st hsi hpi hpb hok

lemma parse_parentInv (text : List Char)
    (h : noJumps (depthsOf (linesOf text)) = true) :
    ParentInv (parse text).all_nodes := by
  apply parseLines_depthInv (linesOf text) ([], none, [])
  · unfold StackInv; intro j x hj; simp at hj
  · unfold ParentInv; intro i p ni np hi; simp at hi
  · unfold ParentBound; intro i n p hi; simp at hi
  · simpa [okDepths] using h

lemma parse_root_parent (text : List Char) (r : Nat) (h : (parse text).root = some r) :
    ((parse text).all_nodes[r]?).map Node.parent = some none := by
  have hr0 := parse_root_zero text r h
  subst hr0
  rw [parse_root_eq] at h
  cases hf : firstMeaningfulDepth (linesOf text) with
  | none => rw [hf] at h; simp at h
  | some d =>
    have h0 := parse_node0 text d hf
    cases ho : (parse text).all_nodes[0]? with
    | none => rw [ho] at h0; simp at h0
    | some n =>
      rw [ho] at h0
      simp only [Option.map_some', Option.some.injEq, Prod.mk.injEq] at h0
      simp [h0.2]

/-! ## Characterization of the look-ahead (used by C2 and C6). -/

lemma nextDepth_dropWhile (rest : List (List Char)) :
    nextDepth rest =
      match rest.dropWhile (fun l => (stripChars l).isEmpty) with
      | [] => none
      | l :: _ => some (parse_line l).1 := by
  induction rest with
  | nil => simp [nextDepth, List.dropWhile]
  | cons l rest ih =>
    by_cases hb : (stripChars l).isEmpty
    · rw [nextDepth, if_pos hb, List.dropWhile_cons_of_pos (by simpa using hb)]
      exact ih
    · rw [nextDepth, if_neg hb, List.dropWhile_cons_of_neg (by simpa using hb)]

/-! ## The claims. -/

/-- C1 (code bug): the claim describes the scan in terms of the real
box-drawing markers (the exact 4-codepoint sequences), and that is
clearly the intent: the spec spells those codepoints out, const.py's
comments call the constants connectors, and the renderer in utils.py
emits the real connectors.  But const.py's literal constants are the
encoding-corrupted strings, so _parse_line never matches a real marker:
every line written with real box-drawing falls through to the fallback
and returns (0, whole trimmed line).  The scan only behaves as the claim
says on input spelled in the corrupted alphabet: the conjuncts pair each
failing real-connector input with the corrupted spelling of the same
line, on which depth counting and name extraction work exactly as
claimed.  The final two conjuncts tie the match arms to the embedded
constants: consuming TREE_BRANCH returns depth-so-far + 1 with the
trimmed remainder, and consuming TREE_VERTICAL adds one level. -/
theorem C1_marker_divergence :
    (TREE_BRANCH ≠ "├── ".toList ∧ TREE_BRANCH.length = 10)
    ∧ parse_line "├── a".toList = (0, "├── a".toList)
    ∧ parse_line "└── a".toList = (0, "└── a".toList)
    ∧ parse_line "│   └── a".toList = (0, "│   └── a".toList)
    ∧ parse_line (TREE_BRANCH ++ ['a']) = (1, ['a'])
    ∧ parse_line (TREE_LAST ++ ['a']) = (1, ['a'])
    ∧ parse_line (TREE_VERTICAL ++ TREE_LAST ++ ['a']) = (2, ['a'])
    ∧ (∀ (depth : Nat) (r : List Char),
        parseLineAt depth (TREE_BRANCH ++ r) = (depth + 1, stripChars r)
        ∧ parseLineAt depth (TREE_LAST ++ r) = (depth + 1, stripChars r)
        ∧ parseLineAt depth (TREE_VERTICAL ++ r) = parseLineAt (depth + 1) r
        ∧ parseLineAt depth (TREE_SPACE ++ r) = parseLineAt (depth + 1) r
        ∧ parseLineAt depth ('\t' :: r) = parseLineAt (depth + 1) r) := by
  refine ⟨⟨by decide, by decide⟩, by decide, by decide, by decide, by decide, by decide,
    by decide, fun depth r => ⟨rfl, rfl, rfl, rfl, rfl⟩⟩

/-- C2 (code bug): the classification mechanism is as claimed: a
trailing slash is the primary signal, stripped and checked before any
inference, and otherwise the node is a directory exactly when the first
subsequent non-blank line extracts a strictly greater depth (first
conjunct), and the trailing-slash example holds end-to-end (second
conjunct).  But the claim's inference example fails on the code: in
"src" followed by "├── main.ext" the look-ahead extracts depth 0,
because the real branch marker never matches const.py's corrupted
TREE_BRANCH, so src is classified a file (third conjunct).  Spelling
the same second line with the code's literal TREE_BRANCH constant
restores the claimed classification (fourth conjunct), isolating the
bug to the constants.  The last conjunct is the file case: a name whose
following lines are not deeper. -/
theorem C2_classification_divergence :
    (∀ (depth : Nat) (name : List Char) (rest : List (List Char)),
      classifyName depth name rest =
        (if endsWithSlash name then (true, rstripSlash name)
         else
           match rest.dropWhile (fun l => (stripChars l).isEmpty) with
           | [] => (false, name)
           | l :: _ => (decide (depth < (parse_line l).1), name)))
    ∧ parse "lib/".toList = ⟨some 0, [⟨['l', 'i', 'b'], true, 0, [], none⟩]⟩
    ∧ ((parse "src\n├── main.ext".toList).all_nodes[0]?).map Node.is_directory = some false
    ∧ ((parse ("src\n".toList ++ TREE_BRANCH ++ "main.ext".toList)).all_nodes[0]?).map
        Node.is_directory = some true
    ∧ ((parse "root/\n├── README.md\n├── other".toList).all_nodes[1]?).map
        Node.is_directory = some false := by
  refine ⟨?_, by decide, by decide, by decide, by decide⟩
  intro depth name rest
  unfold classifyName
  rw [nextDepth_dropWhile]
  by_cases h : endsWithSlash name
  · rw [if_pos h, if_pos h]
  · rw [if_neg h, if_neg h]
    cases hd : rest.dropWhile (fun l => (stripChars l).isEmpty) <;> simp

/-- C6 counterexample: the claim says interposed empty-name lines never
change the classification of their neighbours, but inserting a line
holding a single VERTICAL continuation token (as the code defines it in
const.py) between a root line and its deeper branch line flips the root
from directory to file: the look-ahead stops at that non-blank line and
its extracted depth is 0. -/
theorem C6_lookahead_counterexample :
    ((parse ("a\n".toList ++ TREE_BRANCH ++ ['b'])).all_nodes[0]?).map
        Node.is_directory = some true
    ∧ ((parse ("a\n".toList ++ TREE_VERTICAL ++ '\n' :: TREE_BRANCH ++ ['b'])).all_nodes[0]?).map
        Node.is_directory = some false := by
  decide

/-- C6 (amended): the look-ahead skips only blank lines (lines that
strip to nothing); it stops at the first non-blank subsequent line and
uses that line's extracted depth even when that line's extracted name is
empty.  A line holding a single VERTICAL token (const.py's literal
constant) is non-blank, is not skipped, and contributes extracted depth
0 (the fallback of the scan); and the claim's example line "│   ",
written with the real box-drawing vertical, is not even an empty-name
line in this code: it extracts the non-empty name "│", since the real
vertical matches no token. -/
theorem C6_lookahead_amended :
    (∀ rest : List (List Char),
      nextDepth rest =
        match rest.dropWhile (fun l => (stripChars l).isEmpty) with
        | [] => none
        | l :: _ => some (parse_line l).1)
    ∧ nextDepth [TREE_VERTICAL, TREE_BRANCH ++ ['b']] = some 0
    ∧ parse_line "│   ".toList = (0, ['│']) :=
  ⟨nextDepth_dropWhile, by decide, by decide⟩

/-- C3 counterexample: the claim says the root node has depth 0
regardless of the computed depth, but parsing a first line that begins
with the branch marker as the code actually defines it (const.py's
literal TREE_BRANCH string) stores the computed depth 1 in the root
node's depth field. -/
theorem C3_root_counterexample :
    (parse (TREE_BRANCH ++ ['a'])).root = some 0
    ∧ ((parse (TREE_BRANCH ++ ['a'])).all_nodes[0]?).map Node.depth = some 1
    ∧ ((parse (TREE_BRANCH ++ ['a'])).all_nodes[0]?).map Node.depth ≠ some 0 := by
  decide

/-- C3 (amended): the root is built from the first line that extracts a
non-empty name (it is the first created node, index 0), it has no
parent, and its stored depth field equals the computed depth of that
line, not 0; the root only occupies slot 0 of the parent stack, acting
as the depth-0 ancestor, regardless of that computed depth.  When no
line extracts a non-empty name there is no root and no node. -/
theorem C3_root_amended : ∀ text : List Char,
    (parse text).root = (firstMeaningfulDepth (linesOf text)).map (fun _ => 0)
    ∧ ((parse text).all_nodes[0]?).map (fun n => (n.depth, n.parent)) =
        (firstMeaningfulDepth (linesOf text)).map (fun d => (d, none)) := by
  intro text
  refine ⟨parse_root_eq text, ?_⟩
  cases hf : firstMeaningfulDepth (linesOf text) with
  | none =>
    have hroot : (parse text).root = none := by rw [parse_root_eq, hf]; rfl
    rw [parse_root_none_nodes text hroot]
    simp
  | some d =>
    rw [parse_node0 text d hf]
    simp

/-- A depth-jump input: a plain root line, then a line of computed depth
3 (two VERTICAL tokens then a LAST marker), spelled with const.py's
literal connector constants so that the scan actually consumes them. -/
def jumpInput : List Char :=
  "a\n".toList ++ TREE_VERTICAL ++ TREE_VERTICAL ++ TREE_LAST ++ ['b']

/-- C4 counterexample: the claim says every node's depth is its parent's
depth plus 1, including on depth jumps, but after a depth-0 root a line
of computed depth 3 is attached directly to the root: the child stores
depth 3 while its parent stores depth 0. -/
theorem C4_depth_parent_counterexample :
    ((parse jumpInput).all_nodes[1]?).map (fun n => (n.depth, n.parent)) = some (3, some 0)
    ∧ ((parse jumpInput).all_nodes[0]?).map Node.depth = some 0
    ∧ ¬ (∀ (i p : Nat) (ni np : Node),
        (parse jumpInput).all_nodes[i]? = some ni → ni.parent = some p →
        (parse jumpInput).all_nodes[p]? = some np →
        ni.depth = np.depth + 1) := by
  refine ⟨by decide, by decide, ?_⟩
  intro hall
  have h1 := hall 1 0 ⟨['b'], false, 3, [], some 0⟩ ⟨['a'], true, 0, [1], none⟩
    (by decide) (by decide) (by decide)
  exact absurd h1 (by decide)

/-- C4 (amended): the root always has no parent; and when the input has
no depth jumps, i.e. the first meaningful line has computed depth 0 and
every later meaningful line's computed depth is at most the current
parent-stack length, every node with a parent stores exactly its
parent's depth plus 1.  On depth jumps the law fails (see the
counterexample), because the node is attached to the current stack top
whatever its depth. -/
theorem C4_depth_parent_amended : ∀ text : List Char,
    (∀ r : Nat, (parse text).root = some r →
      ((parse text).all_nodes[r]?).map Node.parent = some none)
    ∧ (noJumps (depthsOf (linesOf text)) = true →
        ∀ (i p : Nat) (ni np : Node), (parse text).all_nodes[i]? = some ni →
          ni.parent = some p → (parse text).all_nodes[p]? = some np →
          ni.depth = np.depth + 1) := by
  intro text
  exact ⟨fun r h => parse_root_parent text r h,
    fun h i p ni np h1 h2 h3 => parse_parentInv text h i p ni np h1 h2 h3⟩

/-- C4 witness: on a two-line jump-free input (spelled with the code's
literal branch constant) the no-jump condition evaluates to true, the
amended depth law gives child depth 1 = root depth 0 + 1 at concrete
indices, and the root clause gives the root a parent of none. -/
theorem C4_depth_parent_witness :
    (noJumps (depthsOf (linesOf ("a\n".toList ++ TREE_BRANCH ++ ['b']))) = true
      ∧ (⟨['b'], false, 1, [], some 0⟩ : Node).depth =
          (⟨['a'], true, 0, [1], none⟩ : Node).depth + 1)
    ∧ ((parse ("a\n".toList ++ TREE_BRANCH ++ ['b'])).all_nodes[0]?).map
        Node.parent = some none :=
  ⟨⟨by decide,
    (C4_depth_parent_amended ("a\n".toList ++ TREE_BRANCH ++ ['b'])).2 (by decide) 1 0
      ⟨['b'], false, 1, [], some 0⟩ ⟨['a'], true, 0, [1], none⟩
      (by decide) (by decide) (by decide)⟩,
   (C4_depth_parent_amended ("a\n".toList ++ TREE_BRANCH ++ ['b'])).1 0 (by decide)⟩

/-- C5 counterexample: the claim's example input, a line of computed
depth 3 immediately after the depth-0 root, does not produce an orphan:
the node is attached to the root (its parent is node 0) and its path
appears in the get_all_paths output. -/
theorem C5_orphan_counterexample :
    ((parse jumpInput).all_nodes[1]?).map Node.parent = some (some 0)
    ∧ get_all_paths (parse jumpInput) [] = [(['a'], true), (['a', '/', 'b'], false)] := by
  decide

/-- C5 (amended): an orphan is a non-root node with no parent, which
arises exactly when the parent stack is emptied, i.e. for a meaningful
line of computed depth 0 after the first; such a node sits in no
children list, its index is never visited by the pre-order traversal
that get_all_paths performs from the root, and it still counts in
get_summary's total, which always equals the length of the flat
all-nodes list.  A depth jump over a non-empty stack does not orphan
the node (see the counterexample). -/
theorem C5_orphan_amended : ∀ (text : List Char) (i : Nat) (n : Node),
    (parse text).all_nodes[i]? = some n → n.parent = none → i ≠ 0 →
    (∀ (j : Nat) (m : Node), (parse text).all_nodes[j]? = some m → i ∉ m.children)
    ∧ i ∉ reachIdx (parse text)
    ∧ (get_summary (parse text)).total = (parse text).all_nodes.length := by
  intro text i n hi hpar hi0
  have hcp := parse_cp text
  refine ⟨?_, ?_, get_summary_total _⟩
  · intro j m hj hmem
    obtain ⟨nc, hnc, hp⟩ := hcp j m i hj hmem
    rw [hi] at hnc
    have hn : nc = n := by simpa using hnc.symm
    rw [hn, hpar] at hp
    exact Option.noConfusion hp
  · intro hmem
    unfold reachIdx at hmem
    cases hr : (parse text).root with
    | none => rw [hr] at hmem; simp at hmem
    | some r =>
      rw [hr] at hmem
      have hr0 := parse_root_zero text r hr
      rcases collectIdx_mem _ _ _ _ hmem with hij | ⟨k, m, hk, hmemc⟩
      · exact hi0 (by rw [hij, hr0])
      · obtain ⟨nc, hnc, hp⟩ := hcp k m i hk hmemc
        rw [hi] at hnc
        have hn : nc = n := by simpa using hnc.symm
        rw [hn, hpar] at hp
        exact Option.noConfusion hp

/-- C5 witness: in a two-line input whose second line has computed depth
0, node 1 is an orphan: in no children list, unreachable from the root,
and still counted in the summary total. -/
theorem C5_orphan_witness :
    (∀ (j : Nat) (m : Node), (parse "a\nb".toList).all_nodes[j]? = some m → 1 ∉ m.children)
    ∧ 1 ∉ reachIdx (parse "a\nb".toList)
    ∧ (get_summary (parse "a\nb".toList)).total = (parse "a\nb".toList).all_nodes.length :=
  C5_orphan_amended "a\nb".toList 1 ⟨['b'], false, 0, [], none⟩ (by decide) (by decide)
    (by decide)

/-- C7: parse returns no root exactly when every line of the (stripped,
newline-split) input is blank or extracts to an empty name; this covers
the empty text and all-whitespace texts, whose lines are all blank.  On
every other input the root is present.  The embedding is a total
function, so no exception is possible by construction. -/
theorem C7_parse_failure : ∀ text : List Char,
    (parse text).root = none ↔
      ∀ l ∈ linesOf text,
        (stripChars l).isEmpty = true ∨ ((parse_line l).2).isEmpty = true := by
  intro text
  rw [parse_root_eq]
  constructor
  · intro h l hl
    have hf : firstMeaningfulDepth (linesOf text) = none := by
      cases hf2 : firstMeaningfulDepth (linesOf text) with
      | none => rfl
      | some d => rw [hf2] at h; simp at h
    have hm := (firstMeaningfulDepth_none_iff _).mp hf l hl
    unfold meaningful at hm
    have hm2 : ¬stripChars l = [] → (parse_line l).2 = [] := by simpa using hm
    simp only [List.isEmpty_iff]
    by_cases hb : stripChars l = []
    · exact Or.inl hb
    · exact Or.inr (hm2 hb)
  · intro h
    have hf : firstMeaningfulDepth (linesOf text) = none := by
      rw [firstMeaningfulDepth_none_iff]
      intro l hl
      unfold meaningful
      rcases h l hl with hb | hn
      · simp [hb]
      · simp [hn]
    rw [hf]
    rfl

/-- The claim's four-line scenario spelled with const.py's literal
connector constants, i.e. the only spelling the staged code's scan can
consume. -/
def scenarioFixed : List Char :=
  "project/\n".toList ++ TREE_BRANCH ++ "src/\n".toList ++
    TREE_VERTICAL ++ TREE_LAST ++ "main.py\n".toList ++
    TREE_LAST ++ "README.md".toList

/-- C8 (code bug): on the claim's input, written with real box-drawing
connectors, the code does not build the claimed tree: no connector
matches the corrupted constants, every connector line extracts
(0, whole trimmed line), so the result is a childless root "project"
plus three parentless depth-0 nodes still named with their connector
glyphs (first conjunct).  By coincidence the summary still counts
{total 4, directories 2, files 2}, since "├── src/" keeps its trailing
slash (second conjunct).  Spelling the same scenario with the literal
const.py constants produces exactly the tree the claim describes, with
children in source order (third and fourth conjuncts), isolating the
bug to the constants.  The last conjunct is the general summary law:
total ranges over the flat all-nodes list and files = total minus
directories. -/
theorem C8_scenario_divergence :
    parse "project/\n├── src/\n│   └── main.py\n└── README.md".toList =
      ⟨some 0,
        [⟨"project".toList, true, 0, [], none⟩,
         ⟨"├── src".toList, true, 0, [], none⟩,
         ⟨"│   └── main.py".toList, false, 0, [], none⟩,
         ⟨"└── README.md".toList, false, 0, [], none⟩]⟩
    ∧ get_summary (parse "project/\n├── src/\n│   └── main.py\n└── README.md".toList) =
        ⟨4, 2, 2⟩
    ∧ parse scenarioFixed =
      ⟨some 0,
        [⟨"project".toList, true, 0, [1, 3], none⟩,
         ⟨"src".toList, true, 1, [2], some 0⟩,
         ⟨"main.py".toList, false, 2, [], some 1⟩,
         ⟨"README.md".toList, false, 1, [], some 0⟩]⟩
    ∧ get_summary (parse scenarioFixed) = ⟨4, 2, 2⟩
    ∧ (∀ st : ParseState, (get_summary st).total = st.all_nodes.length
        ∧ (get_summary st).files = (get_summary st).total - (get_summary st).directories) :=
  ⟨by decide, by decide, by decide, by decide,
   fun st => ⟨get_summary_total st, get_summary_files st⟩⟩

/-- C9 counterexample: a line consisting of a single slash passes the
non-empty check before the slash stripping, so a node with an EMPTY
name is stored, and a line with an interior slash stores a name that
contains a path separator; both contradict the claimed bare-name
invariant. -/
theorem C9_name_counterexample :
    (parse "/".toList).all_nodes = [⟨[], true, 0, [], none⟩]
    ∧ ((parse "a/b".toList).all_nodes[0]?).map Node.name = some ['a', '/', 'b'] := by
  decide

/-- C9 (amended): a line whose extracted name is empty contributes no
node (the node count equals the number of lines that are neither blank
nor empty-name), and no stored name ends with a slash (trailing slashes
are always stripped); but a stored name may be empty (when the extracted
name consists only of slashes) or contain interior slash characters. -/
theorem C9_name_amended : ∀ text : List Char,
    (parse text).all_nodes.length = ((linesOf text).filter meaningful).length
    ∧ (∀ (i : Nat) (n : Node), (parse text).all_nodes[i]? = some n →
        n.name.getLast? ≠ some '/') := by
  intro text
  exact ⟨parse_length text, fun i n hi => parse_nameInv text i n hi⟩

/-- C9 witness: the no-trailing-slash clause at a concrete node of a
concrete parse. -/
theorem C9_name_witness :
    ((⟨['l', 'i', 'b'], true, 0, [], none⟩ : Node).name.getLast? ≠ some '/') :=
  (C9_name_amended "lib/".toList).2 0 ⟨['l', 'i', 'b'], true, 0, [], none⟩ (by decide)

/-- C10: on a fresh parser (parse never called) and after any parse call
that returned no root, get_all_paths yields the empty list for every
base path and get_summary yields all-zero counts; neither operation can
fail, both are total functions of the state. -/
theorem C10_no_result :
    (∀ b : List Char, get_all_paths initState b = [] ∧ get_summary initState = ⟨0, 0, 0⟩)
    ∧ (∀ text b : List Char, (parse text).root = none →
        get_all_paths (parse text) b = [] ∧ get_summary (parse text) = ⟨0, 0, 0⟩) := by
  constructor
  · intro b
    exact ⟨rfl, rfl⟩
  · intro text b h
    have hn := parse_root_none_nodes text h
    constructor
    · unfold get_all_paths
      rw [h]
    · unfold get_summary
      rw [hn]
      rfl

/-- C10 witness: an all-whitespace input leaves no root; paths are empty
and the summary is zero. -/
theorem C10_no_result_witness :
    get_all_paths (parse "  \n \t ".toList) ['b'] = []
    ∧ get_summary (parse "  \n \t ".toList) = ⟨0, 0, 0⟩ :=
  C10_no_result.2 "  \n \t ".toList ['b'] (by decide)

/-- C7 witness: both directions of the failure characterization at
concrete inputs: an all-blank input has no root, and a one-line input
with a name has one. -/
theorem C7_parse_failure_witness :
    (parse "  ".toList).root = none ∧ ¬ (parse "a".toList).root = none :=
  ⟨(C7_parse_failure "  ".toList).mpr (by decide),
   fun h => by
    have hm := (C7_parse_failure "a".toList).mp h "a".toList (by decide)
    exact absurd hm (by decide)⟩
